import Mathlib

/-!
Verification of the entity-deduplication and sanctions-lookup code of the
GabiTFM repository (src/Model/utils.py, src/Model/model.py,
src/OpenSanctions/client/scripts_queries/yente_search1.py).

Python strings are embedded as `List Char`; the helper functions below embed
the string primitives the source uses (`str.replace("##", "")`, `str.strip()`,
`str.lower()`, the substring operator `in`, `len`).  `str.strip()` is embedded
with Lean's `Char.isWhitespace` (space, tab, CR, LF) and `str.lower()` with
`Char.toLower` (ASCII case mapping); none of the claims depend on the extra
Unicode whitespace / case points of the Python originals.
-/

/-- A Python `str`, embedded as its list of characters. -/
abbrev PyStr := List Char

/-- Embedding of Python `s.replace("##", "")`: delete every (left-to-right,
non-overlapping) occurrence of the two-character sequence `##`. -/
def stripHash : PyStr → PyStr
  | [] => []
  | [c] => [c]
  | c1 :: c2 :: rest =>
    if c1 = '#' ∧ c2 = '#' then stripHash rest
    else c1 :: stripHash (c2 :: rest)

/-- Embedding of Python `s.strip()`: drop whitespace from both ends. -/
def pyStrip (s : PyStr) : PyStr :=
  ((s.dropWhile Char.isWhitespace).reverse.dropWhile Char.isWhitespace).reverse

/-- Embedding of Python `s.lower()` (ASCII case mapping). -/
def pyLower (s : PyStr) : PyStr :=
  s.map Char.toLower

namespace Model

/-- src/Model/utils.py line 102 (`norm` inside `delete_duplicates`):
`(s or "").replace("##", "").strip().lower()`.  The `s or ""` guard only
matters for Python `None`, which does not arise for the embedded inputs. -/
def norm (s : PyStr) : PyStr :=
  pyLower (pyStrip (stripHash s))

/-- Rule 1 test of `delete_duplicates` (line 112): `lw == norm(x)`,
with `lw = norm(it)`. -/
def rule1pred (it x : PyStr) : Bool :=
  decide (norm it = norm x)

/-- Rule 2 test (line 116): `lw in norm(x) and len(x) >= len(it)`.  Note that
the length guard compares the ORIGINAL strings, not the normalized forms. -/
def rule2pred (it x : PyStr) : Bool :=
  decide (norm it <:+: norm x) && decide (it.length ≤ x.length)

/-- Rule 3 test (line 121): `norm(x) in lw and len(it) > len(x)`. -/
def rule3pred (it x : PyStr) : Bool :=
  decide (norm x <:+: norm it) && decide (x.length < it.length)

/-- Lines 122-127 of src/Model/utils.py: `out[first] = it` for the first index
satisfying `P`, then `del out[i]` for every later index satisfying `P`.
Walking the list, the first `P`-element is replaced by `it` in place and the
remaining `P`-elements of the tail are filtered out; elements before the first
match (which do not satisfy `P`) are kept.  If no element satisfies `P` the
list is returned unchanged (that branch is never taken by the caller). -/
def replFirst (P : α → Bool) (it : α) : List α → List α
  | [] => []
  | x :: xs => if P x then it :: xs.filter (fun y => !P y) else x :: replFirst P it xs

/-- One iteration of the `for it in items` loop of `delete_duplicates`
(src/Model/utils.py lines 104-131) acting on the accumulator `out`. -/
def dedupStep (out : List PyStr) (it : PyStr) : List PyStr :=
  if it = [] then out
  else if norm it = [] then out
  else if out.any (rule1pred it) then out
  else if out.any (rule2pred it) then out
  else if out.any (rule3pred it) then replFirst (rule3pred it) it out
  else out ++ [it]

/-- src/Model/utils.py lines 92-132: `delete_duplicates(items)`. -/
def delete_duplicates (items : List PyStr) : List PyStr :=
  items.foldl dedupStep []

/-- One span record of the NER collaborator's output (`ner(text)` elements),
as consumed by `extract_entities`: fields `word` and `entity_group`. -/
structure NerEntity where
  word : PyStr
  entity_group : String

/-- The dictionary returned by `extract_entities`. -/
structure EntityLists where
  persons : List PyStr
  organizations : List PyStr
  misc : List PyStr
deriving DecidableEq

/-- src/Model/utils.py lines 67-138: `extract_entities`, starting from the NER
output `ents = ner(text)` (the NER model itself is an external collaborator,
so the embedding takes its output list as the argument). -/
def extract_entities (ents : List NerEntity) : EntityLists :=
  let collected := ents.foldl
    (fun (acc : EntityLists) e =>
      if e.entity_group = "PER" then { acc with persons := acc.persons ++ [e.word] }
      else if e.entity_group = "ORG" then
        { acc with organizations := acc.organizations ++ [e.word] }
      else if e.entity_group = "MISC" then { acc with misc := acc.misc ++ [e.word] }
      else acc)
    ⟨[], [], []⟩
  { persons := delete_duplicates collected.persons
    organizations := delete_duplicates collected.organizations
    misc := delete_duplicates collected.misc }

/-- Neither string is a contiguous substring of the other (Python `in`). -/
def NoMutualContain (a b : PyStr) : Prop :=
  ¬ a <:+: b ∧ ¬ b <:+: a

/-- The property preserved by every iteration of the dedup loop, provided all
mentions are already in normal form: entries are pairwise non-containing and
fixed by `norm`. -/
def DedupInv (out : List PyStr) : Prop :=
  (∀ x ∈ out, norm x = x) ∧ out.Pairwise NoMutualContain

/-- Modelled from the claim's words, for comparison with the source's `norm`:
normalization that lower-cases, strips only LEADING `##` markers, and trims
surrounding whitespace. -/
def stripLeadingHash : PyStr → PyStr
  | '#' :: '#' :: rest => stripLeadingHash rest
  | s => s

/-- Modelled from the claim's words: lower-case, strip leading markers, trim. -/
def norm_spec_claim (s : PyStr) : PyStr :=
  pyStrip (stripLeadingHash (pyLower s))

/-- Modelled from the amended claim's words: lower-case, remove EVERY
occurrence of the `##` marker, trim surrounding whitespace. -/
def norm_spec_amended (s : PyStr) : PyStr :=
  pyStrip (stripHash (pyLower s))

end Model

/-- A JSON value, as produced by `response.json()` / `json.loads`.  Numbers
are embedded as integers (no claim depends on floats). -/
inductive Json where
  | null : Json
  | bool (b : Bool) : Json
  | num (n : Int) : Json
  | str (s : String) : Json
  | arr (elems : List Json) : Json
  | obj (fields : List (String × Json)) : Json

/-- The ASCII single-quote character, as it appears in the Python f-strings
building warning messages. -/
def squo : String := String.singleton (Char.ofNat 39)

namespace Model

/-- An HTTP response as seen by the callers: a status code and a JSON body
(`response.json()` is assumed to parse; a body-parse failure can equally be
folded into the transport error case, which the callers catch the same way). -/
structure Response where
  status : Nat
  body : Json

/-- The network transport underlying `httpx` `Client.get`/`AsyncClient.get`:
for each queried name, either a response or a raised transport error
(connect/timeout, embedded as the error message). -/
def Transport : Type := String → Except String Response

/-- Embedding of `httpx` `Response.raise_for_status()`: raises unless the
status code is 2xx. -/
def raise_for_status (r : Response) : Except String Response :=
  if 200 ≤ r.status ∧ r.status < 300 then .ok r
  else .error ("HTTP status error: " ++ toString r.status)

/-- The failure payload built in `_one`'s `except` branch
(src/Model/utils.py line 214): `{"warning": f"Error '{name}': {e}", "results": []}`. -/
def failureMarker (name e : String) : Json :=
  Json.obj [("warning", Json.str ("Error " ++ squo ++ name ++ squo ++ ": " ++ e)),
    ("results", Json.arr [])]

/-- src/Model/utils.py lines 206-214: the per-name coroutine `_one`.  The
`try`/`except` is embedded as `Except`: a transport error or a non-2xx status
is caught and turned into the failure marker, so the function is total. -/
def _one (t : Transport) (name : String) : String × Json :=
  match (t name).bind raise_for_status with
  | .ok r => (name, r.body)
  | .error e => (name, failureMarker name e)

/-- Line 218: `tasks = [_one(session, n) for n in names]`. -/
def tasks (t : Transport) (names : List String) : List (String × Json) :=
  names.map (_one t)

/-- Python dict assignment `results[name] = data` on an association list:
an existing key keeps its position and gets the new value, a new key is
appended at the end. -/
def dictInsert (d : List (String × Json)) (k : String) (v : Json) :
    List (String × Json) :=
  if d.any (fun p => p.1 == k) then d.map (fun p => if p.1 == k then (k, v) else p)
  else d ++ [(k, v)]

/-- The keys of an association-list dict (also used for the first components
of a task list). -/
def keys (d : List (String × Json)) : List String :=
  d.map Prod.fst

/-- Python `results.get(name)` on the association-list dict. -/
def dictLookup (d : List (String × Json)) (k : String) : Option Json :=
  (d.find? (fun p => p.1 == k)).map Prod.snd

/-- Lines 216-221: `for coro in asyncio.as_completed(tasks): results[name] = data`,
folded over one completion order of the task results. -/
def gatherResults (pairs : List (String × Json)) : List (String × Json) :=
  pairs.foldl (fun d p => dictInsert d p.1 p.2) []

/-- src/Model/utils.py lines 182-222: `query_opensanctions_many`.
`asyncio.as_completed` yields the task results in an arbitrary order; the
theorems below therefore quantify over any permutation of `tasks t names`,
and this definition is the submission-order instance. -/
def query_opensanctions_many (t : Transport) (names : List String) :
    List (String × Json) :=
  gatherResults (tasks t names)

/-- src/Model/utils.py lines 150-178: the synchronous `query_opensanctions`,
whose `except` branch synthesizes
`{"warning": f"OpenSanctions no disponible para '{name}': {e}", "results": []}`. -/
def query_opensanctions (t : Transport) (name : String) : Json :=
  match (t name).bind raise_for_status with
  | .ok r => r.body
  | .error e =>
    Json.obj
      [("warning", Json.str
          ("OpenSanctions no disponible para " ++ squo ++ name ++ squo ++ ": " ++ e)),
        ("results", Json.arr [])]

end Model

namespace Yente

/-- Embedding of `requests` `Response.raise_for_status()`: raises for 4xx and
5xx status codes (see the comment on line 30 of yente_search1.py). -/
def requests_raise_for_status (r : Model.Response) : Except String Model.Response :=
  if r.status < 400 then .ok r
  else .error ("HTTP error: " ++ toString r.status)

/-- src/OpenSanctions/client/scripts_queries/yente_search1.py lines 14-34:
`perform_search`.  On a `RequestException` (transport failure or
`raise_for_status`) it prints an error and returns `None` — embedded as
`none`. -/
def perform_search (t : Model.Transport) (query : String) : Option Json :=
  match (t query).bind requests_raise_for_status with
  | .ok r => some r.body
  | .error _ => none

end Yente

/-- Python `d.get(k)` on a parsed-JSON dict: `none` when the value is not a
dict or the key is missing. -/
def jsonGet (j : Json) (k : String) : Option Json :=
  match j with
  | .obj fields => (fields.find? (fun p => p.1 == k)).map Prod.snd
  | _ => none

/-- Python falsiness (`not x`) of a parsed-JSON value. -/
def jsonFalsy : Json → Bool
  | .null => true
  | .bool b => !b
  | .num n => n == 0
  | .str s => s.isEmpty
  | .arr l => l.isEmpty
  | .obj l => l.isEmpty

mutual

/-- Python `==` on parsed-JSON values (structural; object fields compared in
order, which is all the claims need — candidate ids are strings). -/
def jsonBeq : Json → Json → Bool
  | .null, .null => true
  | .bool a, .bool b => a == b
  | .num a, .num b => a == b
  | .str a, .str b => a == b
  | .arr a, .arr b => jsonBeqList a b
  | .obj a, .obj b => jsonBeqFields a b
  | _, _ => false

def jsonBeqList : List Json → List Json → Bool
  | [], [] => true
  | x :: xs, y :: ys => jsonBeq x y && jsonBeqList xs ys
  | _, _ => false

def jsonBeqFields : List (String × Json) → List (String × Json) → Bool
  | [], [] => true
  | (k1, v1) :: xs, (k2, v2) :: ys => k1 == k2 && jsonBeq v1 v2 && jsonBeqFields xs ys
  | _, _ => false

end

namespace Model

/-- Python `os_json["results"][:max_candidates]` (line 350): slicing succeeds
on lists (and on strings, whose elements iterate as one-character strings) and
raises `TypeError` otherwise. -/
def sliceCands : Json → Nat → Except String (List Json)
  | .arr l, m => .ok (l.take m)
  | .str s, m => .ok ((s.toList.take m).map (fun c => Json.str (String.singleton c)))
  | _, _ => .error "TypeError: unsliceable results"

/-- Lines 389-392: `for r in cands: if r.get("id") == chosen_id: return r`.
A non-dict candidate raises `AttributeError` at `r.get` (this loop is outside
the `try` block), embedded as the `error` case. -/
def findChosen (cands : List Json) (cid : Json) : Except String (Option Json) :=
  match cands with
  | [] => .ok none
  | r :: rest =>
    match r with
    | .obj fields =>
      match (fields.find? (fun p => p.1 == "id")).map Prod.snd with
      | some v => if jsonBeq v cid then .ok (some (Json.obj fields)) else findChosen rest cid
      | none => findChosen rest cid
    | _ => .error "AttributeError"

/-- src/Model/utils.py lines 343-392: `select_os_match_llm`.  The language
model's reply and its `json.loads` parse are external, so the embedding takes
the parsed reply as `parsedResponse` (`none` = the reply was missing,
malformed JSON, or not a dict — all collapsed to `chosen_id = None` by the
`try`/`except` on lines 379-383, together with a missing `"id"` key, which
`dict.get` also turns into `None`). -/
def select_os_match_llm (parsedResponse : Option Json) (os_json : Json)
    (max_candidates : Nat) : Except String (Option Json) :=
  match jsonGet os_json "results" with
  | none => .ok none
  | some res =>
    if jsonFalsy res then .ok none
    else
      match sliceCands res max_candidates with
      | .error e => .error e
      | .ok cands =>
        match parsedResponse.bind (fun d => jsonGet d "id") with
        | none => .ok none
        | some cid =>
          if jsonFalsy cid || jsonBeq cid (Json.str "NONE") then .ok none
          else findChosen cands cid

/-- The search-API response contract of spec section 6:
a JSON body `{"results": [...]}`. -/
def searchResponse (results : List Json) : Json :=
  Json.obj [("results", Json.arr results)]

/-- The lifecycle of one `_one` coroutine with respect to the semaphore
`sem = asyncio.Semaphore(max_concurrency)` (src/Model/utils.py lines 204-211):
not yet inside `async with sem`; inside it with the HTTP request outstanding;
or finished (permit released). -/
inductive TaskPhase where
  | pending : TaskPhase
  | running : TaskPhase
  | finished : TaskPhase
deriving DecidableEq

/-- How many coroutines currently hold the semaphore, i.e. have an HTTP
request outstanding. -/
def runningCount (ts : List TaskPhase) : Nat :=
  ts.countP (fun p => p == TaskPhase.running)

/-- One scheduler step of the cooperative event loop over the task list: a
pending task may acquire the semaphore — only when the semaphore's value
`M - runningCount` is positive, i.e. fewer than `M` tasks hold it — and start
its request, or a running task may complete, leaving the `async with` block
and releasing its permit. -/
inductive SemStep (M : Nat) : List TaskPhase → List TaskPhase → Prop where
  | acquire (l r : List TaskPhase) :
      runningCount (l ++ TaskPhase.pending :: r) < M →
      SemStep M (l ++ TaskPhase.pending :: r) (l ++ TaskPhase.running :: r)
  | release (l r : List TaskPhase) :
      SemStep M (l ++ TaskPhase.running :: r) (l ++ TaskPhase.finished :: r)

/-- States reachable by the event loop from the start of
`query_opensanctions_many`, where all `n` submitted tasks are pending. -/
inductive SemReach (M : Nat) : List TaskPhase → Prop where
  | init (n : Nat) : SemReach M (List.replicate n TaskPhase.pending)
  | step {s s' : List TaskPhase} : SemReach M s → SemStep M s s' → SemReach M s'

end Model

namespace Model

theorem mem_replFirst {P : α → Bool} {it y : α} :
    ∀ {l : List α}, y ∈ replFirst P it l → y = it ∨ y ∈ l
  | [], h => by simp [replFirst] at h
  | x :: xs, h => by
    by_cases hx : P x
    · simp only [replFirst, if_pos hx, List.mem_cons] at h
      rcases h with h | h
      · exact Or.inl h
      · exact Or.inr (List.mem_cons_of_mem _ (List.mem_of_mem_filter h))
    · simp only [replFirst, if_neg hx, List.mem_cons] at h
      rcases h with h | h
      · exact Or.inr (h ▸ List.mem_cons_self x xs)
      · rcases mem_replFirst h with h' | h'
        · exact Or.inl h'
        · exact Or.inr (List.mem_cons_of_mem _ h')

theorem mem_dedupStep {out : List PyStr} {it y : PyStr} (h : y ∈ dedupStep out it) :
    y ∈ out ∨ y = it := by
  unfold dedupStep at h
  repeat' split at h
  · exact Or.inl h
  · exact Or.inl h
  · exact Or.inl h
  · exact Or.inl h
  · exact (mem_replFirst h).symm.imp_left id
  · rcases List.mem_append.mp h with h' | h'
    · exact Or.inl h'
    · exact Or.inr (List.mem_singleton.mp h')

theorem mem_foldl_dedupStep {y : PyStr} :
    ∀ {items out : List PyStr}, y ∈ items.foldl dedupStep out → y ∈ out ∨ y ∈ items
  | [], _, h => Or.inl h
  | it :: rest, out, h => by
    rcases @mem_foldl_dedupStep y rest (dedupStep out it) h with h' | h'
    · rcases mem_dedupStep h' with h'' | h''
      · exact Or.inl h''
      · exact Or.inr (h'' ▸ List.mem_cons_self it rest)
    · exact Or.inr (List.mem_cons_of_mem _ h')

end Model

/-- C10: every entry of the deduplicator's output equals, character for
character, some element of the input list; normalization is used only for
comparison, so retained entries keep their original surface form. -/
theorem claim_C10 (items : List PyStr) (y : PyStr)
    (hy : y ∈ Model.delete_duplicates items) : y ∈ items := by
  rcases Model.mem_foldl_dedupStep hy with h | h
  · simp at h
  · exact h

/-- Witness for C10 at a concrete input. -/
theorem claim_C10_witness :
    ("Juan García".toList ∈
        Model.delete_duplicates ["García".toList, "Juan García".toList, "García".toList]) ∧
      "Juan García".toList ∈ ["García".toList, "Juan García".toList, "García".toList] :=
  ⟨by decide, claim_C10 _ _ (by decide)⟩

namespace Model

theorem NoMutualContain.symm {a b : PyStr} (h : NoMutualContain a b) :
    NoMutualContain b a :=
  ⟨h.2, h.1⟩

theorem replFirst_perm {P : α → Bool} {it : α} :
    ∀ {l : List α}, l.any P = true →
      (replFirst P it l).Perm (it :: l.filter (fun y => !P y))
  | [], h => by simp at h
  | x :: xs, h => by
    by_cases hx : P x
    · simp [replFirst, hx]
    · have hxs : xs.any P = true := by
        rcases List.any_eq_true.mp h with ⟨y, hy, hPy⟩
        rcases List.mem_cons.mp hy with rfl | hy'
        · exact absurd hPy hx
        · exact List.any_eq_true.mpr ⟨y, hy', hPy⟩
      have ih := @replFirst_perm _ P it xs hxs
      simp only [replFirst, if_neg hx, List.filter_cons, hx, Bool.not_false, if_pos]
      exact (ih.cons x).trans (List.Perm.swap it x _)

theorem dedupStep_inv {out : List PyStr} {it : PyStr}
    (hinv : DedupInv out) (hit : norm it = it) : DedupInv (dedupStep out it) := by
  obtain ⟨hout, hpw⟩ := hinv
  unfold dedupStep
  by_cases h0 : it = []
  · simp only [if_pos h0]; exact ⟨hout, hpw⟩
  by_cases h1 : norm it = []
  · simp only [if_neg h0, if_pos h1]; exact ⟨hout, hpw⟩
  by_cases h2 : out.any (rule1pred it) = true
  · simp only [if_neg h0, if_neg h1, h2, if_true]; exact ⟨hout, hpw⟩
  -- rule 1 failed: `it` differs from every accepted entry
  have hne : ∀ x ∈ out, it ≠ x := by
    intro x hx hcontra
    have := List.any_eq_false.mp (Bool.not_eq_true _ ▸ h2) x hx
    simp [rule1pred, hcontra] at this
  by_cases h3 : out.any (rule2pred it) = true
  · simp only [if_neg h0, if_neg h1, h2, if_false, h3, if_true]; exact ⟨hout, hpw⟩
  -- rule 2 failed: `it` is not contained in any accepted entry
  have hnotsub : ∀ x ∈ out, ¬ it <:+: x := by
    intro x hx hsub
    have hfalse := List.any_eq_false.mp (Bool.not_eq_true _ ▸ h3) x hx
    have hlen : it.length ≤ x.length := hsub.length_le
    rw [rule2pred, hit, hout x hx] at hfalse
    simp [hsub, hlen] at hfalse
  -- any accepted entry contained in `it` is strictly shorter
  have hbacksub : ∀ x ∈ out, x <:+: it → rule3pred it x = true := by
    intro x hx hsub
    have hlen : x.length ≤ it.length := hsub.length_le
    rcases Nat.lt_or_ge x.length it.length with hlt | hge
    · rw [rule3pred, hit, hout x hx]
      simp [hsub, hlt]
    · exact absurd (hsub.eq_of_length_le (Nat.le_antisymm hlen hge ▸ Nat.le_refl _)).symm
        (hne x hx)
  by_cases h4 : out.any (rule3pred it) = true
  · -- rule 3: replace the first shorter entry, drop the other shorter entries
    simp only [if_neg h0, if_neg h1, h2, if_false, h3, h4, if_true]
    have hperm := @replFirst_perm _ (rule3pred it) it out h4
    constructor
    · intro x hx
      rcases mem_replFirst hx with rfl | hx'
      · exact hit
      · exact hout x hx'
    · refine hperm.symm.pairwise ?_ (fun h => h.symm)
      refine List.pairwise_cons.mpr ⟨?_, List.Pairwise.sublist (List.filter_sublist _) hpw⟩
      intro y hy
      have hyout : y ∈ out := List.mem_of_mem_filter hy
      have hyP : rule3pred it y = false := by
        have := List.of_mem_filter hy
        simpa using this
      constructor
      · exact hnotsub y hyout
      · intro hsub
        have htrue := hbacksub y hyout hsub
        rw [hyP] at htrue
        exact Bool.false_ne_true htrue
  · -- rule 4: append at the end
    simp only [if_neg h0, if_neg h1, h2, if_false, h3, h4, if_false]
    constructor
    · intro x hx
      rcases List.mem_append.mp hx with hx' | hx'
      · exact hout x hx'
      · exact (List.mem_singleton.mp hx') ▸ hit
    · refine List.pairwise_append.mpr ⟨hpw, List.pairwise_singleton _ _, ?_⟩
      intro a ha b hb
      have hb' : b = it := List.mem_singleton.mp hb
      subst hb'
      constructor
      · intro hsub
        have hfalse := List.any_eq_false.mp (Bool.not_eq_true _ ▸ h4) a ha
        exact hfalse (hbacksub a ha hsub)
      · exact hnotsub a ha

theorem foldl_dedupStep_inv :
    ∀ {items out : List PyStr}, (∀ s ∈ items, norm s = s) → DedupInv out →
      DedupInv (items.foldl dedupStep out)
  | [], _, _, hinv => hinv
  | it :: rest, out, hnorm, hinv => by
    have hstep := dedupStep_inv hinv (hnorm it (List.mem_cons_self it rest))
    exact @foldl_dedupStep_inv rest (dedupStep out it)
      (fun s hs => hnorm s (List.mem_cons_of_mem _ hs)) hstep

end Model

/-- C1 fails as stated: the rule-2/rule-3 length guards compare the RAW
strings, so a mention whose raw form is longer than its normalized form can
slip past both rules.  With input `["ab ", "abc"]` the output keeps both
entries although `norm "ab " = "ab"` is a substring of `norm "abc" = "abc"`. -/
theorem claim_C1_counterexample :
    Model.delete_duplicates [['a', 'b', ' '], ['a', 'b', 'c']] =
        [['a', 'b', ' '], ['a', 'b', 'c']] ∧
      Model.norm ['a', 'b', ' '] <:+: Model.norm ['a', 'b', 'c'] ∧
      ['a', 'b', ' '] ≠ ['a', 'b', 'c'] := by
  refine ⟨by decide, ?_, by decide⟩
  exact ⟨[], ['c'], by decide⟩

/-- C1 amended: for inputs whose mentions are already in normal form (no `##`
markers, no surrounding whitespace, already lower case — i.e. `norm` fixes
them), the deduplicator's output contains no two entries where the normalized
form of one is a substring of the normalized form of the other. -/
theorem claim_C1_amended (items : List PyStr) (h : ∀ s ∈ items, Model.norm s = s) :
    (Model.delete_duplicates items).Pairwise
      (fun a b => ¬ Model.norm a <:+: Model.norm b ∧ ¬ Model.norm b <:+: Model.norm a) := by
  have hinv := @Model.foldl_dedupStep_inv items [] h ⟨by simp, List.Pairwise.nil⟩
  obtain ⟨hnorm, hpw⟩ := hinv
  have heq : Model.delete_duplicates items = items.foldl Model.dedupStep [] := rfl
  rw [heq]
  refine List.Pairwise.imp_of_mem ?_ hpw
  intro a b ha hb hab
  rw [hnorm a ha, hnorm b hb]
  exact hab

/-- Witness for the amended C1 at a concrete already-normalized input. -/
theorem claim_C1_witness :
    (∀ s ∈ ["juan garcía".toList, "pedro".toList], Model.norm s = s) ∧
      (Model.delete_duplicates ["juan garcía".toList, "pedro".toList]).Pairwise
        (fun a b => ¬ Model.norm a <:+: Model.norm b ∧ ¬ Model.norm b <:+: Model.norm a) :=
  ⟨by decide, claim_C1_amended _ (by decide)⟩

/-- C2: the two deduplicator examples and the end-to-end NER scenario from the
spec, evaluated on the embedded code. -/
theorem claim_C2 :
    Model.delete_duplicates ["García".toList, "Juan García".toList, "García".toList] =
        ["Juan García".toList] ∧
      Model.delete_duplicates ["Juan".toList, "Pedro".toList, "Juan Pérez".toList] =
        ["Juan Pérez".toList, "Pedro".toList] ∧
      (Model.extract_entities
          [⟨"Trump".toList, "PER"⟩, ⟨"Donald Trump".toList, "PER"⟩]).persons =
        ["Donald Trump".toList] := by
  refine ⟨by decide, by decide, by decide⟩

namespace Model

theorem replFirst_eq_of_any {P : α → Bool} {it : α} :
    ∀ {l : List α}, l.any P = true →
      replFirst P it l =
        l.take (l.findIdx P) ++
          it :: ((l.drop (l.findIdx P + 1)).filter (fun y => !P y))
  | [], h => by simp at h
  | x :: xs, h => by
    by_cases hx : P x
    · simp [replFirst, hx, List.findIdx_cons]
    · have hxs : xs.any P = true := by
        rcases List.any_eq_true.mp h with ⟨y, hy, hPy⟩
        rcases List.mem_cons.mp hy with rfl | hy'
        · exact absurd hPy hx
        · exact List.any_eq_true.mpr ⟨y, hy', hPy⟩
      have ih := @replFirst_eq_of_any _ P it xs hxs
      simp [replFirst, hx, List.findIdx_cons, ih]

end Model

/-- C5: with rules 0-1 out of the way (`it` nonempty, nonempty normal form, no
exact normalized duplicate), rule 2 takes priority — if some accepted entry
contains the mention and is at least as long, the accumulator is returned
unchanged even when rule 3 would also match — and when rule 2 fails and rule 3
fires, the first matching shorter entry (at index `findIdx`) is replaced in
place by the new mention while every later matching shorter entry is removed
and all other entries keep their relative order. -/
theorem claim_C5 (out : List PyStr) (it : PyStr)
    (h0 : it ≠ []) (h1 : Model.norm it ≠ [])
    (hr1 : out.any (Model.rule1pred it) = false) :
    (out.any (Model.rule2pred it) = true → Model.dedupStep out it = out) ∧
      (out.any (Model.rule2pred it) = false → out.any (Model.rule3pred it) = true →
        Model.dedupStep out it =
          out.take (out.findIdx (Model.rule3pred it)) ++
            it :: ((out.drop (out.findIdx (Model.rule3pred it) + 1)).filter
              (fun y => !Model.rule3pred it y))) := by
  have hr1' : out.any (Model.rule1pred it) ≠ true := by simp [hr1]
  constructor
  · intro h2
    simp [Model.dedupStep, h0, h1, hr1', h2]
  · intro h2 h3
    have h2' : out.any (Model.rule2pred it) ≠ true := by simp [h2]
    simp only [Model.dedupStep, if_neg h0, if_neg h1, if_neg hr1', if_neg h2', h3, if_true]
    exact Model.replFirst_eq_of_any h3

/-- Witness for C5: `["Juan", "Pedro"]` accumulated, new mention
`"Juan Pérez"`; rule 3 fires on the first entry. -/
theorem claim_C5_witness :
    ("Juan Pérez".toList ≠ [] ∧ Model.norm "Juan Pérez".toList ≠ [] ∧
        ["Juan".toList, "Pedro".toList].any (Model.rule1pred "Juan Pérez".toList) = false) ∧
      (["Juan".toList, "Pedro".toList].any (Model.rule2pred "Juan Pérez".toList) = true →
          Model.dedupStep ["Juan".toList, "Pedro".toList] "Juan Pérez".toList =
            ["Juan".toList, "Pedro".toList]) ∧
      (["Juan".toList, "Pedro".toList].any (Model.rule2pred "Juan Pérez".toList) = false →
        ["Juan".toList, "Pedro".toList].any (Model.rule3pred "Juan Pérez".toList) = true →
        Model.dedupStep ["Juan".toList, "Pedro".toList] "Juan Pérez".toList =
          (["Juan".toList, "Pedro".toList]).take
              ((["Juan".toList, "Pedro".toList]).findIdx (Model.rule3pred "Juan Pérez".toList)) ++
            "Juan Pérez".toList ::
              (((["Juan".toList, "Pedro".toList]).drop
                  ((["Juan".toList, "Pedro".toList]).findIdx
                    (Model.rule3pred "Juan Pérez".toList) + 1)).filter
                (fun y => !Model.rule3pred "Juan Pérez".toList y))) :=
  ⟨⟨by decide, by decide, by decide⟩,
    (claim_C5 _ _ (by decide) (by decide) (by decide)).1,
    (claim_C5 _ _ (by decide) (by decide) (by decide)).2⟩

theorem toNat_toLower_of_upper {c : Char} (h : 65 ≤ c.toNat ∧ c.toNat ≤ 90) :
    c.toLower.toNat = c.toNat + 32 := by
  have hv : (c.toNat + 32).isValidChar := Or.inl (by omega)
  rw [Char.toLower]
  rw [if_pos ⟨h.1, h.2⟩]
  rw [Char.ofNat, dif_pos hv]
  simp [Char.ofNatAux, Char.toNat, UInt32.toNat]

theorem toLower_of_not_upper {c : Char} (h : ¬(65 ≤ c.toNat ∧ c.toNat ≤ 90)) :
    c.toLower = c := by
  rw [Char.toLower]
  exact if_neg h

theorem eq_of_toNat_eq {c d : Char} (h : c.toNat = d.toNat) : c = d :=
  Char.ext (UInt32.toNat.inj h)

theorem toLower_eq_hash_iff {c : Char} : c.toLower = '#' ↔ c = '#' := by
  constructor
  · intro h
    by_cases hu : 65 ≤ c.toNat ∧ c.toNat ≤ 90
    · have hln := toNat_toLower_of_upper hu
      rw [h] at hln
      have h35 : ('#' : Char).toNat = 35 := by decide
      omega
    · rwa [toLower_of_not_upper hu] at h
  · intro h
    subst h
    decide

theorem isWhitespace_iff_toNat (c : Char) :
    c.isWhitespace = true ↔
      (c.toNat = 32 ∨ c.toNat = 9 ∨ c.toNat = 13 ∨ c.toNat = 10) := by
  rw [Char.isWhitespace]
  simp only [Bool.or_eq_true, decide_eq_true_eq]
  constructor
  · rintro (((rfl | rfl) | rfl) | rfl) <;> decide
  · rintro (h | h | h | h)
    · exact Or.inl (Or.inl (Or.inl (eq_of_toNat_eq (by rw [h]; decide))))
    · exact Or.inl (Or.inl (Or.inr (eq_of_toNat_eq (by rw [h]; decide))))
    · exact Or.inl (Or.inr (eq_of_toNat_eq (by rw [h]; decide)))
    · exact Or.inr (eq_of_toNat_eq (by rw [h]; decide))

theorem isWhitespace_toLower (c : Char) : c.toLower.isWhitespace = c.isWhitespace := by
  by_cases hu : 65 ≤ c.toNat ∧ c.toNat ≤ 90
  · have hln := toNat_toLower_of_upper hu
    have h1 : c.toLower.isWhitespace = false := by
      rw [Bool.eq_false_iff]
      intro hw
      rcases (isWhitespace_iff_toNat _).mp hw with h' | h' | h' | h' <;> omega
    have h2 : c.isWhitespace = false := by
      rw [Bool.eq_false_iff]
      intro hw
      rcases (isWhitespace_iff_toNat _).mp hw with h' | h' | h' | h' <;> omega
    rw [h1, h2]
  · rw [toLower_of_not_upper hu]

theorem stripHash_map_toLower : ∀ s : PyStr,
    stripHash (s.map Char.toLower) = (stripHash s).map Char.toLower
  | [] => rfl
  | [c] => rfl
  | c1 :: c2 :: rest => by
    have hiff : (c1.toLower = '#' ∧ c2.toLower = '#') ↔ (c1 = '#' ∧ c2 = '#') :=
      and_congr toLower_eq_hash_iff toLower_eq_hash_iff
    simp only [List.map_cons, stripHash]
    by_cases h : c1 = '#' ∧ c2 = '#'
    · rw [if_pos (hiff.mpr h), if_pos h]
      exact stripHash_map_toLower rest
    · rw [if_neg (fun hc => h (hiff.mp hc)), if_neg h]
      have ih := stripHash_map_toLower (c2 :: rest)
      simp only [List.map_cons] at ih
      rw [List.map_cons, ih]

theorem dropWhile_isWhitespace_map_toLower (s : PyStr) :
    (s.map Char.toLower).dropWhile Char.isWhitespace =
      (s.dropWhile Char.isWhitespace).map Char.toLower := by
  rw [List.dropWhile_map]
  have hfun : (Char.isWhitespace ∘ Char.toLower) = Char.isWhitespace := by
    funext c
    exact isWhitespace_toLower c
  rw [hfun]

theorem pyStrip_map_toLower (s : PyStr) :
    pyStrip (s.map Char.toLower) = (pyStrip s).map Char.toLower := by
  rw [pyStrip, pyStrip, dropWhile_isWhitespace_map_toLower, ← List.map_reverse,
    dropWhile_isWhitespace_map_toLower, ← List.map_reverse]

namespace Model

theorem norm_eq_norm_spec_amended (s : PyStr) : norm s = norm_spec_amended s := by
  rw [norm, norm_spec_amended, pyLower, pyLower, stripHash_map_toLower,
    pyStrip_map_toLower]

theorem dedupStep_of_norm_nil {out : List PyStr} {it : PyStr} (hit : norm it = []) :
    dedupStep out it = out := by
  simp [dedupStep, hit]

theorem dedupStep_norm_ne {out : List PyStr} {it : PyStr}
    (hout : ∀ x ∈ out, norm x ≠ []) : ∀ y ∈ dedupStep out it, norm y ≠ [] := by
  intro y hy
  unfold dedupStep at hy
  split_ifs at hy with h0 h1 hr1 hr2 hr3
  · exact hout y hy
  · exact hout y hy
  · exact hout y hy
  · exact hout y hy
  · rcases mem_replFirst hy with rfl | hy'
    · exact h1
    · exact hout y hy'
  · rcases List.mem_append.mp hy with hy' | hy'
    · exact hout y hy'
    · exact (List.mem_singleton.mp hy') ▸ h1

theorem foldl_dedupStep_norm_ne :
    ∀ {items out : List PyStr}, (∀ x ∈ out, norm x ≠ []) →
      ∀ y ∈ items.foldl dedupStep out, norm y ≠ []
  | [], _, hout, y, hy => hout y hy
  | it :: rest, out, hout, y, hy =>
    @foldl_dedupStep_norm_ne rest (dedupStep out it)
      (dedupStep_norm_ne hout) y hy

end Model

/-- C6 fails as stated: the source normalization `s.replace("##", "")` removes
EVERY occurrence of the marker, not only leading ones.  On `"a##b"` the code
normalizes to `"ab"` (so the mention is treated as a duplicate of `"ab"` and
dropped), while the claim's leading-only normalization would keep `"a##b"`
distinct. -/
theorem claim_C6_counterexample :
    Model.norm ['a', '#', '#', 'b'] = ['a', 'b'] ∧
      Model.norm_spec_claim ['a', '#', '#', 'b'] = ['a', '#', '#', 'b'] ∧
      Model.norm ['a', '#', '#', 'b'] ≠ Model.norm_spec_claim ['a', '#', '#', 'b'] ∧
      Model.delete_duplicates [['a', 'b'], ['a', '#', '#', 'b']] = [['a', 'b']] := by
  refine ⟨by decide, by decide, by decide, by decide⟩

/-- C6 amended: the normalization lower-cases, removes EVERY occurrence of the
subword-continuation marker `##` (not only leading ones) and trims surrounding
whitespace; mentions that are empty after normalization are silently discarded
(they never reach the output and the step is a no-op on them), and an empty
input yields an empty output. -/
theorem claim_C6_amended (s : PyStr) (items : List PyStr) (y : PyStr)
    (hy : y ∈ Model.delete_duplicates items) (out : List PyStr) (it : PyStr)
    (hit : Model.norm it = []) :
    Model.norm s = Model.norm_spec_amended s ∧
      Model.norm y ≠ [] ∧
      Model.dedupStep out it = out ∧
      Model.delete_duplicates ([] : List PyStr) = [] := by
  refine ⟨Model.norm_eq_norm_spec_amended s, ?_, Model.dedupStep_of_norm_nil hit, rfl⟩
  exact @Model.foldl_dedupStep_norm_ne items [] (by simp) y hy

/-- Witness for the amended C6 at concrete inputs. -/
theorem claim_C6_witness :
    (['a', 'b'] ∈ Model.delete_duplicates [['a', 'b']] ∧
        Model.norm ['#', '#', ' '] = []) ∧
      Model.norm ['A', '#', '#', 'b', ' '] =
          Model.norm_spec_amended ['A', '#', '#', 'b', ' '] ∧
        Model.norm ['a', 'b'] ≠ [] ∧
        Model.dedupStep [['x']] ['#', '#', ' '] = [['x']] ∧
        Model.delete_duplicates ([] : List PyStr) = [] :=
  ⟨⟨by decide, by decide⟩,
    claim_C6_amended ['A', '#', '#', 'b', ' '] [['a', 'b']] ['a', 'b'] (by decide)
      [['x']] ['#', '#', ' '] (by decide)⟩

namespace Model

theorem _one_fst (t : Transport) (x : String) : (_one t x).1 = x := by
  unfold _one
  rcases (t x).bind raise_for_status with r | e <;> rfl

theorem keys_tasks (t : Transport) (names : List String) :
    keys (tasks t names) = names := by
  rw [keys, tasks, List.map_map]
  have : (Prod.fst ∘ _one t) = id := by
    funext x
    exact _one_fst t x
  rw [this, List.map_id]

theorem any_key_iff {d : List (String × Json)} {k : String} :
    d.any (fun p => p.1 == k) = true ↔ k ∈ keys d := by
  simp only [List.any_eq_true, beq_iff_eq, keys, List.mem_map]

theorem keys_dictInsert_of_mem {d : List (String × Json)} {k : String} (v : Json)
    (h : k ∈ keys d) : keys (dictInsert d k v) = keys d := by
  rw [dictInsert, if_pos (any_key_iff.mpr h), keys, List.map_map]
  refine List.map_congr_left ?_
  intro p _
  by_cases hp : p.1 == k
  · simp only [Function.comp_apply, if_pos hp]
    exact (eq_of_beq hp).symm
  · simp only [Function.comp_apply, if_neg hp]

theorem keys_dictInsert_of_not_mem {d : List (String × Json)} {k : String} (v : Json)
    (h : k ∉ keys d) : keys (dictInsert d k v) = keys d ++ [k] := by
  rw [dictInsert, if_neg (fun hc => h (any_key_iff.mp hc))]
  simp [keys]

theorem mem_keys_dictInsert {d : List (String × Json)} {k k' : String} {v : Json} :
    k' ∈ keys (dictInsert d k v) ↔ k' ∈ keys d ∨ k' = k := by
  by_cases h : k ∈ keys d
  · rw [keys_dictInsert_of_mem v h]
    exact ⟨Or.inl, fun hc => hc.elim id (fun e => e ▸ h)⟩
  · rw [keys_dictInsert_of_not_mem v h]
    simp

theorem nodup_keys_dictInsert {d : List (String × Json)} {k : String} {v : Json}
    (h : (keys d).Nodup) : (keys (dictInsert d k v)).Nodup := by
  by_cases hm : k ∈ keys d
  · rwa [keys_dictInsert_of_mem v hm]
  · rw [keys_dictInsert_of_not_mem v hm]
    simp [List.nodup_append, h, hm]

theorem mem_keys_foldl {k : String} :
    ∀ {pairs : List (String × Json)} {d : List (String × Json)},
      k ∈ keys (pairs.foldl (fun d p => dictInsert d p.1 p.2) d) ↔
        k ∈ keys d ∨ k ∈ keys pairs
  | [], d => by simp [keys]
  | p :: rest, d => by
    rw [List.foldl_cons, @mem_keys_foldl k rest (dictInsert d p.1 p.2), mem_keys_dictInsert]
    simp only [keys, List.map_cons, List.mem_cons]
    tauto

theorem nodup_keys_foldl :
    ∀ {pairs d : List (String × Json)}, (keys d).Nodup →
      (keys (pairs.foldl (fun d p => dictInsert d p.1 p.2) d)).Nodup
  | [], _, h => h
  | p :: rest, d, h => @nodup_keys_foldl rest (dictInsert d p.1 p.2) (nodup_keys_dictInsert h)

theorem dictLookup_map_update {k : String} {v : Json} :
    ∀ (d : List (String × Json)),
      dictLookup (d.map (fun p => if p.1 == k then (k, v) else p)) k =
        if d.any (fun p => p.1 == k) then some v else none
  | [] => rfl
  | p :: rest => by
    by_cases hp : p.1 == k
    · simp only [List.map_cons, if_pos hp, List.any_cons, hp, Bool.true_or, if_true]
      rw [dictLookup, List.find?_cons_of_pos _ (by simp), Option.map_some']
    · simp only [List.map_cons, if_neg hp, List.any_cons, hp, Bool.false_or]
      rw [dictLookup, List.find?_cons_of_neg _ (by simpa using hp)]
      exact dictLookup_map_update rest

theorem dictLookup_dictInsert_self (d : List (String × Json)) (k : String) (v : Json) :
    dictLookup (dictInsert d k v) k = some v := by
  rw [dictInsert]
  by_cases h : d.any (fun p => p.1 == k)
  · rw [if_pos h, dictLookup_map_update, if_pos h]
  · rw [if_neg h, dictLookup, List.find?_append]
    have hnone : d.find? (fun p => p.1 == k) = none := by
      rw [List.find?_eq_none]
      intro p hp
      have := List.any_eq_false.mp (Bool.not_eq_true _ ▸ h) p hp
      simpa using this
    rw [hnone, Option.none_or, List.find?_cons_of_pos _ (by simp), Option.map_some']

theorem dictLookup_map_update_ne {k k' : String} {v : Json} (hne : k' ≠ k) :
    ∀ (d : List (String × Json)),
      dictLookup (d.map (fun p => if p.1 == k then (k, v) else p)) k' = dictLookup d k'
  | [] => rfl
  | p :: rest => by
    by_cases hp : p.1 == k
    · simp only [List.map_cons, if_pos hp]
      rw [dictLookup, List.find?_cons_of_neg _ (by simpa using fun e => hne e.symm),
        dictLookup, List.find?_cons_of_neg _ ?_]
      · exact dictLookup_map_update_ne hne rest
      · have : p.1 = k := eq_of_beq hp
        simpa [this] using fun e => hne e.symm
    · simp only [List.map_cons, if_neg hp]
      by_cases hq : p.1 == k'
      · rw [dictLookup, List.find?_cons_of_pos _ (by simpa using hq),
          dictLookup, List.find?_cons_of_pos _ (by simpa using hq)]
      · rw [dictLookup, List.find?_cons_of_neg _ (by simpa using hq),
          dictLookup, List.find?_cons_of_neg _ (by simpa using hq)]
        exact dictLookup_map_update_ne hne rest

theorem dictLookup_dictInsert_ne (d : List (String × Json)) {k k' : String} (v : Json)
    (hne : k' ≠ k) : dictLookup (dictInsert d k v) k' = dictLookup d k' := by
  rw [dictInsert]
  by_cases h : d.any (fun p => p.1 == k)
  · rw [if_pos h]
    exact dictLookup_map_update_ne hne d
  · rw [if_neg h, dictLookup, List.find?_append]
    have hsingle : ([(k, v)].find? (fun p => p.1 == k')) = none := by
      rw [List.find?_eq_none]
      intro p hp
      rw [List.mem_singleton.mp hp]
      simpa using fun e => hne e.symm
    rw [hsingle, Option.or_none]
    rfl

theorem foldl_lookup_not_mem {k : String} :
    ∀ {pairs d : List (String × Json)}, k ∉ keys pairs →
      dictLookup (pairs.foldl (fun d p => dictInsert d p.1 p.2) d) k = dictLookup d k
  | [], _, _ => rfl
  | p :: rest, d, h => by
    have hk : k ∉ keys rest := fun hc => h (by simp [keys, List.mem_cons]; right; simpa [keys] using hc)
    have hne : k ≠ p.1 := fun e => h (by simp [keys, e])
    rw [List.foldl_cons, @foldl_lookup_not_mem k rest (dictInsert d p.1 p.2) hk,
      dictLookup_dictInsert_ne _ _ hne]

theorem foldl_lookup_mem {k : String} {v : Json} :
    ∀ {pairs d : List (String × Json)}, (∀ p ∈ pairs, p.1 = k → p.2 = v) →
      k ∈ keys pairs →
      dictLookup (pairs.foldl (fun d p => dictInsert d p.1 p.2) d) k = some v
  | [], _, _, hm => by simp [keys] at hm
  | p :: rest, d, hval, hm => by
    by_cases hr : k ∈ keys rest
    · exact @foldl_lookup_mem k v rest (dictInsert d p.1 p.2)
        (fun q hq => hval q (List.mem_cons_of_mem _ hq)) hr
    · have hp1 : p.1 = k := by
        have : k = p.1 ∨ k ∈ keys rest := by simpa [keys] using hm
        rcases this with h | h
        · exact h.symm
        · exact absurd h hr
      have hv : p.2 = v := hval p (List.mem_cons_self _ _) hp1
      rw [List.foldl_cons, @foldl_lookup_not_mem k rest (dictInsert d p.1 p.2) hr, hp1, hv,
        dictLookup_dictInsert_self]

/-- The value each key ends up with in the assembled mapping: present names
map to their `_one` result, absent names are absent, independently of the
completion order. -/
theorem qom_lookup {t : Transport} {names : List String}
    {pairs : List (String × Json)} (hperm : pairs.Perm (tasks t names))
    (n : String) :
    dictLookup (gatherResults pairs) n =
      if n ∈ names then some ((_one t n).2) else none := by
  have hkeys : (keys pairs).Perm names := by
    have := hperm.map Prod.fst
    rw [show (tasks t names).map Prod.fst = keys (tasks t names) from rfl,
      keys_tasks] at this
    exact this
  have hmem : n ∈ keys pairs ↔ n ∈ names := hkeys.mem_iff
  have hval : ∀ p ∈ pairs, p.1 = n → p.2 = (_one t n).2 := by
    intro p hp hpn
    have hpt : p ∈ tasks t names := hperm.subset hp
    rcases List.mem_map.mp hpt with ⟨m, _, rfl⟩
    rw [_one_fst] at hpn
    rw [hpn]
  by_cases hn : n ∈ names
  · rw [if_pos hn, gatherResults]
    exact foldl_lookup_mem hval (hmem.mpr hn)
  · rw [if_neg hn, gatherResults, foldl_lookup_not_mem (fun hc => hn (hmem.mp hc))]
    rfl

end Model

/-- C3: independently of the completion order (any permutation `pairs` of the
task results), the assembled mapping has pairwise-distinct keys, its key set
is exactly the set of input names (so duplicates collapse to a single entry
and nothing crashes — the assembly is total), and the number of keys equals
the number of distinct input names. -/
theorem claim_C3 (t : Model.Transport) (names : List String)
    (pairs : List (String × Json)) (hperm : pairs.Perm (Model.tasks t names)) :
    (Model.keys (Model.gatherResults pairs)).Nodup ∧
      (∀ n, n ∈ Model.keys (Model.gatherResults pairs) ↔ n ∈ names) ∧
      (Model.keys (Model.gatherResults pairs)).length = names.dedup.length ∧
      Model.query_opensanctions_many t names =
        Model.gatherResults (Model.tasks t names) := by
  have hkeys : (Model.keys pairs).Perm names := by
    have := hperm.map Prod.fst
    rw [show (Model.tasks t names).map Prod.fst = Model.keys (Model.tasks t names)
        from rfl, Model.keys_tasks] at this
    exact this
  have hnodup : (Model.keys (Model.gatherResults pairs)).Nodup :=
    Model.nodup_keys_foldl (by simp [Model.keys])
  have hmem : ∀ n, n ∈ Model.keys (Model.gatherResults pairs) ↔ n ∈ names := by
    intro n
    rw [Model.gatherResults, Model.mem_keys_foldl]
    simp only [Model.keys, List.map_nil, List.not_mem_nil, false_or]
    exact hkeys.mem_iff
  refine ⟨hnodup, hmem, ?_, rfl⟩
  have hdd : names.dedup.Nodup := names.nodup_dedup
  have hperm2 : (Model.keys (Model.gatherResults pairs)).Perm names.dedup := by
    rw [List.perm_ext_iff_of_nodup hnodup hdd]
    intro a
    rw [hmem a, List.mem_dedup]
  exact hperm2.length_eq

/-- Witness for C3 with the identity completion order, one duplicated name
and an always-failing transport. -/
theorem claim_C3_witness :
    (Model.keys (Model.gatherResults
          (Model.tasks (fun _ => Except.error "down") ["a", "b", "a"]))).Nodup ∧
      (∀ n, n ∈ Model.keys (Model.gatherResults
            (Model.tasks (fun _ => Except.error "down") ["a", "b", "a"])) ↔
          n ∈ ["a", "b", "a"]) ∧
      (Model.keys (Model.gatherResults
            (Model.tasks (fun _ => Except.error "down") ["a", "b", "a"]))).length =
        (["a", "b", "a"] : List String).dedup.length ∧
      Model.query_opensanctions_many (fun _ => Except.error "down") ["a", "b", "a"] =
        Model.gatherResults (Model.tasks (fun _ => Except.error "down") ["a", "b", "a"]) :=
  claim_C3 (fun _ => Except.error "down") ["a", "b", "a"] _ (List.Perm.refl _)

namespace Model

theorem _one_of_error {t : Transport} {name e : String}
    (h : (t name).bind raise_for_status = .error e) :
    _one t name = (name, failureMarker name e) := by
  rw [_one, h]

end Model

/-- C4: a failed request (transport error or non-2xx status, i.e. an `error`
outcome of `raise_for_status`) for one name is caught inside `_one` — whose
embedding is total, so nothing propagates — and that name's entry becomes the
`{"warning": ..., "results": []}` marker; a transport that differs only at
name `X` leaves every other name's entry unchanged; and when every request
fails, every entry is a failure marker. -/
theorem claim_C4 (t t' : Model.Transport) (X : String) (names : List String)
    (pairs pairs' : List (String × Json))
    (hperm : pairs.Perm (Model.tasks t names))
    (hperm' : pairs'.Perm (Model.tasks t' names))
    (hagree : ∀ n, n ≠ X → t' n = t n) :
    (∀ name ∈ names, ∀ e, (t name).bind Model.raise_for_status = .error e →
        Model.dictLookup (Model.gatherResults pairs) name =
          some (Model.failureMarker name e)) ∧
      (∀ n ∈ names, n ≠ X →
        Model.dictLookup (Model.gatherResults pairs') n =
          Model.dictLookup (Model.gatherResults pairs) n) ∧
      ((∀ name, ∃ e, (t name).bind Model.raise_for_status = .error e) →
        ∀ name ∈ names, ∃ e,
          Model.dictLookup (Model.gatherResults pairs) name =
            some (Model.failureMarker name e)) := by
  refine ⟨?_, ?_, ?_⟩
  · intro name hname e herr
    rw [Model.qom_lookup hperm, if_pos hname, Model._one_of_error herr]
  · intro n hn hnX
    rw [Model.qom_lookup hperm, Model.qom_lookup hperm', if_pos hn, if_pos hn]
    rw [Model._one, Model._one, hagree n hnX]
  · intro hfail name hname
    obtain ⟨e, he⟩ := hfail name
    exact ⟨e, by rw [Model.qom_lookup hperm, if_pos hname, Model._one_of_error he]⟩

/-- Witness for C4: an always-failing transport, identity completion order. -/
theorem claim_C4_witness :
    (∀ name ∈ ["a", "b"], ∀ e,
        ((fun _ => Except.error "down" : Model.Transport) name).bind
            Model.raise_for_status = .error e →
        Model.dictLookup (Model.gatherResults
            (Model.tasks (fun _ => Except.error "down") ["a", "b"])) name =
          some (Model.failureMarker name e)) ∧
      (∀ n ∈ ["a", "b"], n ≠ "x" →
        Model.dictLookup (Model.gatherResults
            (Model.tasks (fun _ => Except.error "down") ["a", "b"])) n =
          Model.dictLookup (Model.gatherResults
            (Model.tasks (fun _ => Except.error "down") ["a", "b"])) n) ∧
      ((∀ name, ∃ e,
          ((fun _ => Except.error "down" : Model.Transport) name).bind
              Model.raise_for_status = .error e) →
        ∀ name ∈ ["a", "b"], ∃ e,
          Model.dictLookup (Model.gatherResults
              (Model.tasks (fun _ => Except.error "down") ["a", "b"])) name =
            some (Model.failureMarker name e)) :=
  claim_C4 (fun _ => Except.error "down") (fun _ => Except.error "down") "x"
    ["a", "b"] _ _ (List.Perm.refl _) (List.Perm.refl _) (fun _ _ => rfl)

/-- C7 fails as stated: `perform_search` in yente_search1.py also issues a GET
to `{base_url}/search/{dataset}`, but on a transport/HTTP failure it returns
Python `None` (after printing a message) — not a synthesized
`{"warning": ..., "results": []}` dictionary. -/
theorem claim_C7_counterexample :
    Yente.perform_search (fun _ => Except.error "connection refused") "Juan" = none ∧
      ∀ j : Json,
        Yente.perform_search (fun _ => Except.error "connection refused") "Juan" ≠
          some j := by
  exact ⟨rfl, fun j h => Option.noConfusion h⟩

/-- C7 amended: the two fetch paths in Model/utils.py (`query_opensanctions`
and the per-name `_one`) synthesize `{"warning": "<message>", "results": []}`
on transport/HTTP failure, while the CLI script's `perform_search` instead
returns `None` on failure (its caller handles `None` by printing a message). -/
theorem claim_C7_amended (t tr : Model.Transport) (name q e e' : String)
    (hfail : (t name).bind Model.raise_for_status = .error e)
    (hfailr : (tr q).bind Yente.requests_raise_for_status = .error e') :
    Model.query_opensanctions t name =
        Json.obj
          [("warning", Json.str
              ("OpenSanctions no disponible para " ++ squo ++ name ++ squo ++ ": " ++ e)),
            ("results", Json.arr [])] ∧
      Model._one t name = (name, Model.failureMarker name e) ∧
      Yente.perform_search tr q = none := by
  refine ⟨?_, Model._one_of_error hfail, ?_⟩
  · rw [Model.query_opensanctions, hfail]
  · rw [Yente.perform_search, hfailr]

/-- Witness for the amended C7 with concrete failing transports. -/
theorem claim_C7_witness :
    (((fun _ => Except.error "boom" : Model.Transport) "Juan").bind
          Model.raise_for_status = Except.error "boom" ∧
        ((fun _ => Except.error "refused" : Model.Transport) "q").bind
          Yente.requests_raise_for_status = Except.error "refused") ∧
      Model.query_opensanctions (fun _ => Except.error "boom") "Juan" =
          Json.obj
            [("warning", Json.str
                ("OpenSanctions no disponible para " ++ squo ++ "Juan" ++ squo ++
                  ": " ++ "boom")),
              ("results", Json.arr [])] ∧
        Model._one (fun _ => Except.error "boom") "Juan" =
          ("Juan", Model.failureMarker "Juan" "boom") ∧
        Yente.perform_search (fun _ => Except.error "refused") "q" = none :=
  ⟨⟨rfl, rfl⟩, claim_C7_amended (fun _ => Except.error "boom")
    (fun _ => Except.error "refused") "Juan" "q" "boom" "refused" rfl rfl⟩

namespace Model

theorem findChosen_mem {cid : Json} :
    ∀ {cands : List Json} {r : Json}, findChosen cands cid = .ok (some r) → r ∈ cands
  | [], _, h => by simp [findChosen] at h
  | c :: rest, r, h => by
    rcases c with _ | b | n | s | elems | fields
    all_goals simp only [findChosen] at h
    all_goals try exact Except.noConfusion h
    rcases hid : (fields.find? (fun p => p.1 == "id")).map Prod.snd with _ | v
    · rw [hid] at h
      exact List.mem_cons_of_mem _ (findChosen_mem h)
    · rw [hid] at h
      dsimp only at h
      by_cases hb : jsonBeq v cid
      · rw [if_pos hb] at h
        obtain rfl : Json.obj fields = r := by
          simpa using h
        exact List.mem_cons_self _ _
      · rw [if_neg hb] at h
        exact List.mem_cons_of_mem _ (findChosen_mem h)

theorem findChosen_total {cid : Json} :
    ∀ {cands : List Json}, (∀ r ∈ cands, ∃ fields, r = Json.obj fields) →
      ∃ v, findChosen cands cid = .ok v
  | [], _ => ⟨none, rfl⟩
  | c :: rest, hobj => by
    obtain ⟨fields, rfl⟩ := hobj c (List.mem_cons_self _ _)
    have ih := @findChosen_total cid rest
      (fun r hr => hobj r (List.mem_cons_of_mem _ hr))
    rw [findChosen]
    rcases hid : (fields.find? (fun p => p.1 == "id")).map Prod.snd with _ | v
    · rw [hid]
      exact ih
    · rw [hid]
      dsimp only
      by_cases hb : jsonBeq v cid
      · exact ⟨some (Json.obj fields), by rw [if_pos hb]⟩
      · rw [if_neg hb]
        exact ih

theorem findChosen_none {cid : Json} :
    ∀ {cands : List Json}, (∀ r ∈ cands, ∃ fields, r = Json.obj fields) →
      (∀ r ∈ cands, ∀ v, jsonGet r "id" = some v → jsonBeq v cid = false) →
      findChosen cands cid = .ok none
  | [], _, _ => rfl
  | c :: rest, hobj, hnomatch => by
    obtain ⟨fields, rfl⟩ := hobj c (List.mem_cons_self _ _)
    have ih := @findChosen_none cid rest
      (fun r hr => hobj r (List.mem_cons_of_mem _ hr))
      (fun r hr => hnomatch r (List.mem_cons_of_mem _ hr))
    rw [findChosen]
    rcases hid : (fields.find? (fun p => p.1 == "id")).map Prod.snd with _ | v
    · rw [hid]
      exact ih
    · rw [hid]
      dsimp only
      have hv := hnomatch (Json.obj fields) (List.mem_cons_self _ _) v
      rw [if_neg ?_]
      · exact ih
      · rw [hv (by simpa [jsonGet] using hid)]
        exact Bool.false_ne_true

end Model

/-- C8: against a well-formed search response (a nonempty `"results"` array of
candidate objects), `select_os_match_llm` never raises; a missing or malformed
language-model reply, a missing `"id"`, an `"id"` of `"NONE"`, or an `"id"`
matching no candidate each yield no selection (`none`); and any returned
record is one of the response's candidates. -/
theorem claim_C8 (parsed : Option Json) (results : List Json) (mc : Nat)
    (hobj : ∀ r ∈ results, ∃ fields, r = Json.obj fields) (hne : results ≠ []) :
    (∃ v, Model.select_os_match_llm parsed (Model.searchResponse results) mc =
        .ok v) ∧
      (∀ r, Model.select_os_match_llm parsed (Model.searchResponse results) mc =
          .ok (some r) → r ∈ results) ∧
      (parsed = none →
        Model.select_os_match_llm parsed (Model.searchResponse results) mc =
          .ok none) ∧
      (∀ d, parsed = some d → jsonGet d "id" = none →
        Model.select_os_match_llm parsed (Model.searchResponse results) mc =
          .ok none) ∧
      (∀ d, parsed = some d → jsonGet d "id" = some (Json.str "NONE") →
        Model.select_os_match_llm parsed (Model.searchResponse results) mc =
          .ok none) ∧
      (∀ d cid, parsed = some d → jsonGet d "id" = some cid →
        (∀ r ∈ results.take mc, ∀ v, jsonGet r "id" = some v →
          jsonBeq v cid = false) →
        Model.select_os_match_llm parsed (Model.searchResponse results) mc =
          .ok none) := by
  have hres : jsonGet (Model.searchResponse results) "results" =
      some (Json.arr results) := by
    simp [jsonGet, Model.searchResponse]
  have hfalsy : jsonFalsy (Json.arr results) = false := by
    cases results with
    | nil => exact absurd rfl hne
    | cons a as => rfl
  have hstep : ∀ cid? : Option Json, parsed.bind (fun d => jsonGet d "id") = cid? →
      Model.select_os_match_llm parsed (Model.searchResponse results) mc =
        (match cid? with
          | none => .ok none
          | some cid =>
            if jsonFalsy cid || jsonBeq cid (Json.str "NONE") then .ok none
            else Model.findChosen (results.take mc) cid) := by
    intro cid? hc
    rw [Model.select_os_match_llm, hres]
    dsimp only
    rw [if_neg (by rw [hfalsy]; exact Bool.false_ne_true)]
    dsimp only [Model.sliceCands]
    rw [hc]
  have hobj' : ∀ r ∈ results.take mc, ∃ fields, r = Json.obj fields :=
    fun r hr => hobj r (List.take_subset _ _ hr)
  refine ⟨?_, ?_, ?_, ?_, ?_, ?_⟩
  · rcases hcid : parsed.bind (fun d => jsonGet d "id") with _ | cid
    · exact ⟨none, hstep none hcid⟩
    · rw [hstep _ hcid]
      dsimp only
      by_cases hfn : jsonFalsy cid || jsonBeq cid (Json.str "NONE")
      · rw [if_pos hfn]
        exact ⟨none, rfl⟩
      · rw [if_neg hfn]
        exact Model.findChosen_total hobj'
  · intro r hr
    rcases hcid : parsed.bind (fun d => jsonGet d "id") with _ | cid
    · rw [hstep none hcid] at hr
      exact absurd (Except.ok.inj hr) (by simp)
    · rw [hstep _ hcid] at hr
      dsimp only at hr
      by_cases hfn : jsonFalsy cid || jsonBeq cid (Json.str "NONE")
      · rw [if_pos hfn] at hr
        exact absurd (Except.ok.inj hr) (by simp)
      · rw [if_neg hfn] at hr
        exact List.take_subset _ _ (Model.findChosen_mem hr)
  · intro hp
    exact hstep none (by rw [hp]; rfl)
  · intro d hp hid
    exact hstep none (by rw [hp]; exact hid)
  · intro d hp hid
    rw [hstep (some (Json.str "NONE")) (by rw [hp]; exact hid)]
    dsimp only
    rw [if_pos (by decide)]
  · intro d cid hp hid hnomatch
    rw [hstep (some cid) (by rw [hp]; exact hid)]
    dsimp only
    by_cases hfn : jsonFalsy cid || jsonBeq cid (Json.str "NONE")
    · rw [if_pos hfn]
    · rw [if_neg hfn]
      exact Model.findChosen_none hobj' hnomatch

/-- Witness for C8: one candidate with id `"Q1"` and a reply selecting it. -/
theorem claim_C8_witness :
    (∃ v, Model.select_os_match_llm (some (Json.obj [("id", Json.str "Q1")]))
        (Model.searchResponse [Json.obj [("id", Json.str "Q1")]]) 8 = .ok v) ∧
      (∀ r, Model.select_os_match_llm (some (Json.obj [("id", Json.str "Q1")]))
          (Model.searchResponse [Json.obj [("id", Json.str "Q1")]]) 8 =
          .ok (some r) → r ∈ [Json.obj [("id", Json.str "Q1")]]) ∧
      (some (Json.obj [("id", Json.str "Q1")]) = none →
        Model.select_os_match_llm (some (Json.obj [("id", Json.str "Q1")]))
          (Model.searchResponse [Json.obj [("id", Json.str "Q1")]]) 8 = .ok none) ∧
      (∀ d, some (Json.obj [("id", Json.str "Q1")]) = some d →
        jsonGet d "id" = none →
        Model.select_os_match_llm (some (Json.obj [("id", Json.str "Q1")]))
          (Model.searchResponse [Json.obj [("id", Json.str "Q1")]]) 8 = .ok none) ∧
      (∀ d, some (Json.obj [("id", Json.str "Q1")]) = some d →
        jsonGet d "id" = some (Json.str "NONE") →
        Model.select_os_match_llm (some (Json.obj [("id", Json.str "Q1")]))
          (Model.searchResponse [Json.obj [("id", Json.str "Q1")]]) 8 = .ok none) ∧
      (∀ d cid, some (Json.obj [("id", Json.str "Q1")]) = some d →
        jsonGet d "id" = some cid →
        (∀ r ∈ ([Json.obj [("id", Json.str "Q1")]] : List Json).take 8,
          ∀ v, jsonGet r "id" = some v → jsonBeq v cid = false) →
        Model.select_os_match_llm (some (Json.obj [("id", Json.str "Q1")]))
          (Model.searchResponse [Json.obj [("id", Json.str "Q1")]]) 8 = .ok none) :=
  claim_C8 (some (Json.obj [("id", Json.str "Q1")])) [Json.obj [("id", Json.str "Q1")]]
    8 (fun r hr => ⟨[("id", Json.str "Q1")], List.mem_singleton.mp hr⟩) (by simp)

namespace Model

theorem runningCount_append (l r : List TaskPhase) :
    runningCount (l ++ r) = runningCount l + runningCount r :=
  List.countP_append _ _ _

theorem runningCount_replicate_pending (n : Nat) :
    runningCount (List.replicate n TaskPhase.pending) = 0 := by
  induction n with
  | zero => rfl
  | succ m ih =>
    rw [List.replicate_succ, runningCount, List.countP_cons]
    simp [runningCount, ih]

end Model

/-- C9: in every event-loop state reachable during `query_opensanctions_many`,
at most `M` (= `max_concurrency`) requests are outstanding at once: the
semaphore admits a pending task only when fewer than `M` tasks hold it, so
`runningCount` never exceeds `M`. -/
theorem claim_C9 (M : Nat) (s : List Model.TaskPhase) (h : Model.SemReach M s) :
    Model.runningCount s ≤ M := by
  induction h with
  | init n => simp [Model.runningCount_replicate_pending]
  | step hr hs ih =>
    cases hs with
    | acquire l r hM =>
      simp [Model.runningCount, List.countP_append, List.countP_cons] at hM ⊢
      omega
    | release l r =>
      simp [Model.runningCount, List.countP_append, List.countP_cons] at ih ⊢
      omega

/-- Witness for C9: with `M = 2`, the state after one acquisition from two
submitted tasks is reachable and satisfies the bound. -/
theorem claim_C9_witness :
    Model.SemReach 2 [Model.TaskPhase.running, Model.TaskPhase.pending] ∧
      Model.runningCount [Model.TaskPhase.running, Model.TaskPhase.pending] ≤ 2 :=
  have hreach : Model.SemReach 2 [Model.TaskPhase.running, Model.TaskPhase.pending] :=
    Model.SemReach.step (Model.SemReach.init 2)
      (Model.SemStep.acquire [] [Model.TaskPhase.pending] (by decide))
  ⟨hreach, claim_C9 2 _ hreach⟩
